import Mathlib

/-!
Shallow embedding of the single-qubit variational eigensolver notebook
(`toy_hamiltonian_v4.ipynb`).  The notebook estimates the ground state of
H = a·Z + b·X + c·Y by sampling a parameterised one-qubit circuit in the
three Pauli bases, converting counts to expectation estimates, normalising
the resulting three-vector, and minimising the weighted sum with COBYLA.

The deterministic core embedded here:
* `exp_from_counts` — counts dictionary to expectation estimate;
* `get_var_form`    — circuit construction as a list of gates;
* gate semantics (`runCircuit`) over `Fin 2 → ℂ`;
* `ham_exp_val`'s post-sampling arithmetic (`norm3`, `ham_exp_val_post`);
* the verifier matrix `ham_matrix` and its eigenvalue equation.
-/

namespace QCFC

/-- Global shot budget of the notebook (`NUM_SHOTS = 10000`). -/
def NUM_SHOTS : ℕ := 10000

/-- A Python dict of measurement counts, keyed by the outcome strings
"0" and "1".  `none` models an absent key (sparse representation returned
by qiskit's `get_counts`). -/
structure CountsDict where
  c0 : Option ℕ
  c1 : Option ℕ
deriving DecidableEq, Repr

/-- The count for an outcome, reading an absent key as zero. -/
def CountsDict.count0 (counts : CountsDict) : ℕ := counts.c0.getD 0

/-- The count for outcome 1, reading an absent key as zero. -/
def CountsDict.count1 (counts : CountsDict) : ℕ := counts.c1.getD 0

/-- `exp_from_counts(counts)` from the notebook.  A failing key lookup
(Python `KeyError`) is modelled by `none`; `numShots` stands for the
global `NUM_SHOTS` read by the Python function.  Division is exact
rational division, modelling Python's real-number `/`. -/
def exp_from_counts (counts : CountsDict) (numShots : ℕ) : Option ℚ :=
  match counts.c0 with
  | none =>
      -- if '0' not in counts.keys(): exp_val = -1 * counts['1'] / NUM_SHOTS
      counts.c1.map fun n1 => -1 * (n1 : ℚ) / numShots
  | some n0 =>
      match counts.c1 with
      | none =>
          -- elif '1' not in counts.keys(): exp_val = counts['0'] / NUM_SHOTS
          some ((n0 : ℚ) / numShots)
      | some n1 =>
          -- else: exp_val = (counts['0'] - counts['1']) / NUM_SHOTS
          some (((n0 : ℚ) - n1) / numShots)

end QCFC

namespace QCFC

/-- C1: the three-branch edge-case policy of the estimator, for counts
summing to the (positive) shot budget: count(1)=0 gives exactly +1,
count(0)=0 gives −count(1)/shots, and otherwise the symmetric difference
(count(0)−count(1))/shots. -/
theorem exp_from_counts_edge_case_policy
    (counts : CountsDict) (shots : ℕ) (hpos : 0 < shots)
    (hsum : counts.count0 + counts.count1 = shots) :
    (counts.count1 = 0 → exp_from_counts counts shots = some 1) ∧
    (counts.count0 = 0 →
      exp_from_counts counts shots = some (-(counts.count1 : ℚ) / shots)) ∧
    (counts.count0 ≠ 0 → counts.count1 ≠ 0 →
      exp_from_counts counts shots =
        some (((counts.count0 : ℚ) - counts.count1) / shots)) := by
  obtain ⟨c0, c1⟩ := counts
  have hs : (shots : ℚ) ≠ 0 := by exact_mod_cast hpos.ne.symm
  cases c0 with
  | none =>
      cases c1 with
      | none =>
          simp [CountsDict.count0, CountsDict.count1] at hsum
          omega
      | some n1 =>
          simp only [CountsDict.count0, CountsDict.count1, Option.getD_none,
            Option.getD_some, Nat.zero_add] at hsum
          subst hsum
          refine ⟨?_, ?_, ?_⟩
          · intro h1
            simp only [CountsDict.count1, Option.getD_some] at h1
            omega
          · intro _
            have hev : exp_from_counts (CountsDict.mk none (some n1)) n1 =
                some (-1 * (n1 : ℚ) / n1) := rfl
            rw [hev]
            simp only [CountsDict.count1, Option.getD_some]
            congr 1
            ring
          · intro h _
            exact absurd rfl h
  | some n0 =>
      cases c1 with
      | none =>
          simp only [CountsDict.count0, CountsDict.count1, Option.getD_none,
            Option.getD_some, Nat.add_zero] at hsum
          subst hsum
          refine ⟨?_, ?_, ?_⟩
          · intro _
            simp [exp_from_counts, div_self hs]
          · intro h0
            simp only [CountsDict.count0, Option.getD_some] at h0
            subst h0
            simp [exp_from_counts]
          · intro _ h
            exact absurd rfl h
      | some n1 =>
          simp only [CountsDict.count0, CountsDict.count1,
            Option.getD_some] at hsum
          refine ⟨?_, ?_, ?_⟩
          · intro h1
            simp only [CountsDict.count1, Option.getD_some] at h1
            subst h1
            have hn0 : n0 = shots := by omega
            subst hn0
            simp [exp_from_counts, div_self hs]
          · intro h0
            simp only [CountsDict.count0, Option.getD_some] at h0
            subst h0
            simp [exp_from_counts, CountsDict.count1, neg_div]
          · intro _ _
            simp [exp_from_counts, CountsDict.count0, CountsDict.count1]

/-- Concrete instantiation of the C1 policy at shots = NUM_SHOTS. -/
theorem exp_from_counts_edge_case_policy_witness :
    (0 < NUM_SHOTS ∧
      (CountsDict.mk (some 10000) none).count0 +
        (CountsDict.mk (some 10000) none).count1 = NUM_SHOTS) ∧
    exp_from_counts (CountsDict.mk (some 10000) none) NUM_SHOTS = some 1 :=
  ⟨⟨by decide, by decide⟩,
    (exp_from_counts_edge_case_policy (CountsDict.mk (some 10000) none)
      NUM_SHOTS (by decide) (by decide)).1 (by decide)⟩

/-- C8: whenever the counts sum to a positive shot budget, the estimator
returns a value, and that value lies in the closed interval [−1, 1],
whichever of the three branches is taken. -/
theorem exp_from_counts_range
    (counts : CountsDict) (shots : ℕ) (hpos : 0 < shots)
    (hsum : counts.count0 + counts.count1 = shots) :
    ∃ q : ℚ, exp_from_counts counts shots = some q ∧ -1 ≤ q ∧ q ≤ 1 := by
  obtain ⟨c0, c1⟩ := counts
  have hspos : (0 : ℚ) < shots := by exact_mod_cast hpos
  cases c0 with
  | none =>
      cases c1 with
      | none =>
          simp [CountsDict.count0, CountsDict.count1] at hsum
          omega
      | some n1 =>
          simp only [CountsDict.count0, CountsDict.count1, Option.getD_none,
            Option.getD_some, Nat.zero_add] at hsum
          subst hsum
          have hn : ((n1 : ℚ)) ≠ 0 := by exact_mod_cast hpos.ne.symm
          refine ⟨-1 * (n1 : ℚ) / n1, rfl, ?_, ?_⟩
          · rw [neg_one_mul, neg_div, div_self hn]
          · rw [neg_one_mul, neg_div, div_self hn]
            linarith
  | some n0 =>
      cases c1 with
      | none =>
          simp only [CountsDict.count0, CountsDict.count1, Option.getD_none,
            Option.getD_some, Nat.add_zero] at hsum
          subst hsum
          have hn : ((n0 : ℚ)) ≠ 0 := by exact_mod_cast hpos.ne.symm
          refine ⟨(n0 : ℚ) / n0, rfl, ?_, ?_⟩
          · rw [div_self hn]; linarith
          · rw [div_self hn]
      | some n1 =>
          simp only [CountsDict.count0, CountsDict.count1,
            Option.getD_some] at hsum
          have hcast : (n0 : ℚ) + n1 = shots := by exact_mod_cast hsum
          have h0 : (0 : ℚ) ≤ (n0 : ℚ) := by positivity
          have h1 : (0 : ℚ) ≤ (n1 : ℚ) := by positivity
          refine ⟨((n0 : ℚ) - n1) / shots, rfl, ?_, ?_⟩
          · rw [le_div_iff₀ hspos]
            linarith
          · rw [div_le_one hspos]
            linarith

/-- Concrete instantiation of the C8 range bound. -/
theorem exp_from_counts_range_witness :
    ∃ q : ℚ, exp_from_counts (CountsDict.mk (some 7000) (some 3000))
        NUM_SHOTS = some q ∧ -1 ≤ q ∧ q ≤ 1 :=
  exp_from_counts_range (CountsDict.mk (some 7000) (some 3000)) NUM_SHOTS
    (by decide) (by decide)

/-- C9: the estimator performs no failing key lookup as soon as at least
one of the keys "0", "1" is present, and at least one key is present
whenever the counts sum to a positive shot budget. -/
theorem exp_from_counts_no_key_error (counts : CountsDict) (shots : ℕ) :
    ((counts.c0 ≠ none ∨ counts.c1 ≠ none) →
      (exp_from_counts counts shots).isSome = true) ∧
    (counts.count0 + counts.count1 = shots → 0 < shots →
      counts.c0 ≠ none ∨ counts.c1 ≠ none) := by
  obtain ⟨c0, c1⟩ := counts
  constructor
  · intro hkey
    cases c0 with
    | none =>
        cases c1 with
        | none => simp at hkey
        | some n1 => rfl
    | some n0 =>
        cases c1 with
        | none => rfl
        | some n1 => rfl
  · intro hsum hpos
    cases c0 with
    | none =>
        cases c1 with
        | none =>
            simp [CountsDict.count0, CountsDict.count1] at hsum
            omega
        | some n1 => exact Or.inr (by simp)
    | some n0 => exact Or.inl (by simp)

/-- Concrete instantiation of the C9 lookup-safety property, with the
key "0" entirely absent from the sparse mapping. -/
theorem exp_from_counts_no_key_error_witness :
    (exp_from_counts (CountsDict.mk none (some 10000)) NUM_SHOTS).isSome
        = true ∧
    ((CountsDict.mk none (some 10000)).c0 ≠ none ∨
      (CountsDict.mk none (some 10000)).c1 ≠ none) :=
  ⟨(exp_from_counts_no_key_error (CountsDict.mk none (some 10000))
      NUM_SHOTS).1 (Or.inr (by decide)),
    (exp_from_counts_no_key_error (CountsDict.mk none (some 10000))
      NUM_SHOTS).2 (by decide) (by decide)⟩

/-- The gate instructions a circuit built by `get_var_form` can contain,
listed in qiskit application order.  `measure` records the final
measurement instruction. -/
inductive Gate where
  | ry (angle : ℝ)
  | rz (angle : ℝ)
  | h
  | z
  | s
  | measure

/-- The basis-change gates `get_var_form` appends before measuring:
nothing by default, `h` for the tag "x", and `z`, `s`, `h` for the tag
"y".  Any other tag falls through both string comparisons. -/
def basisGates (meas_axis : String) : List Gate :=
  if meas_axis = "x" then [Gate.h]
  else if meas_axis = "y" then [Gate.z, Gate.s, Gate.h]
  else []

/-- `get_var_form(params, meas_axis)` from the notebook, as the list of
gates in application order.  `params[0]` raises `IndexError` in Python
when the list is empty, modelled by `none`; `params[1]` is read only
when `len(params) > 1`, and any further entries are never read. -/
def get_var_form (params : List ℝ) (meas_axis : String) :
    Option (List Gate) :=
  match params.get? 0 with
  | none => none
  | some p0 =>
      let gates := [Gate.ry p0]
      let gates := if hlen : 1 < params.length
        then gates ++ [Gate.rz (params.get ⟨1, hlen⟩)] else gates
      some (gates ++ basisGates meas_axis ++ [Gate.measure])

/-- C2 counterexample: a 3-parameter vector is accepted without any
error — the circuit is built from the first two parameters and the third
is silently ignored, contradicting the claimed validation failure for
lengths greater than 2. -/
theorem get_var_form_three_params_no_error :
    get_var_form [0, 0, 0] "z" =
      some [Gate.ry 0, Gate.rz 0, Gate.measure] := by
  rfl

/-- C2 amended: an empty parameter vector makes `get_var_form` fail (the
`params[0]` lookup, not an explicit validation), while a vector longer
than 2 is accepted and behaves exactly like its first two entries. -/
theorem get_var_form_length_policy :
    (∀ meas_axis : String, get_var_form [] meas_axis = none) ∧
    (∀ (params : List ℝ) (meas_axis : String), 2 < params.length →
      get_var_form params meas_axis =
        get_var_form (params.take 2) meas_axis) := by
  constructor
  · intro meas_axis
    rfl
  · intro params meas_axis hlen
    match params with
    | [] => simp at hlen
    | [a] => simp at hlen
    | a :: b :: rest =>
        show get_var_form (a :: b :: rest) meas_axis =
          get_var_form [a, b] meas_axis
        simp [get_var_form]

/-- Concrete instantiation of the C2 amended policy. -/
theorem get_var_form_length_policy_witness :
    get_var_form [] "z" = none ∧
    get_var_form [(0 : ℝ), 1, 2] "z" =
      get_var_form ([(0 : ℝ), 1, 2].take 2) "z" :=
  ⟨get_var_form_length_policy.1 "z",
    get_var_form_length_policy.2 [(0 : ℝ), 1, 2] "z" (by simp)⟩

/-- C10: the basis tag is never validated — any tag other than "x" and
"y" silently produces the same circuit as the tag "z", and no error is
raised as long as the parameter vector is non-empty. -/
theorem get_var_form_unvalidated_basis
    (params : List ℝ) (meas_axis : String)
    (hx : meas_axis ≠ "x") (hy : meas_axis ≠ "y") :
    get_var_form params meas_axis = get_var_form params "z" ∧
    (params ≠ [] → (get_var_form params meas_axis).isSome = true) := by
  have hb : basisGates meas_axis = [] := by
    simp [basisGates, hx, hy]
  have hz : basisGates "z" = [] := rfl
  constructor
  · cases hp : params[0]? with
    | none => simp [get_var_form, hp]
    | some p0 => simp [get_var_form, hp, hb, hz]
  · intro hne
    match params with
    | [] => exact absurd rfl hne
    | a :: rest =>
        simp [get_var_form]

/-- Concrete instantiation of C10 at the unrecognised tag "q". -/
theorem get_var_form_unvalidated_basis_witness :
    get_var_form [(0 : ℝ)] "q" = get_var_form [(0 : ℝ)] "z" ∧
    (get_var_form [(0 : ℝ)] "q").isSome = true :=
  ⟨(get_var_form_unvalidated_basis [(0 : ℝ)] "q" (by decide) (by decide)).1,
    (get_var_form_unvalidated_basis [(0 : ℝ)] "q" (by decide)
      (by decide)).2 (by simp)⟩

/-! Semantics of the gates on a single-qubit state vector, with the
standard qiskit unitaries. -/

/-- The rotation `ry(t)`. -/
noncomputable def ryMat (t : ℝ) : Matrix (Fin 2) (Fin 2) ℂ :=
  !![Real.cos (t / 2), -Real.sin (t / 2);
     Real.sin (t / 2),  Real.cos (t / 2)]

/-- The rotation `rz(t)`. -/
noncomputable def rzMat (t : ℝ) : Matrix (Fin 2) (Fin 2) ℂ :=
  !![Complex.exp (-(t / 2) * Complex.I), 0;
     0, Complex.exp ((t / 2) * Complex.I)]

/-- The Hadamard gate. -/
noncomputable def hMat : Matrix (Fin 2) (Fin 2) ℂ :=
  ((Real.sqrt 2 : ℂ))⁻¹ • !![1, 1; 1, -1]

/-- The Pauli Z gate. -/
noncomputable def zMat : Matrix (Fin 2) (Fin 2) ℂ := !![1, 0; 0, -1]

/-- The phase gate S. -/
noncomputable def sMat : Matrix (Fin 2) (Fin 2) ℂ := !![1, 0; 0, Complex.I]

/-- The Pauli Y matrix. -/
noncomputable def yMat : Matrix (Fin 2) (Fin 2) ℂ :=
  !![0, -Complex.I; Complex.I, 0]

/-- The initial state |0⟩ of the single qubit register. -/
noncomputable def ket0 : Fin 2 → ℂ := ![1, 0]

/-- Action of one gate on the state vector.  The final `measure`
instruction samples rather than evolves the state, so it leaves the
pre-measurement state unchanged here. -/
noncomputable def applyGate : Gate → (Fin 2 → ℂ) → (Fin 2 → ℂ)
  | Gate.ry t, v => (ryMat t).mulVec v
  | Gate.rz t, v => (rzMat t).mulVec v
  | Gate.h, v => hMat.mulVec v
  | Gate.z, v => zMat.mulVec v
  | Gate.s, v => sMat.mulVec v
  | Gate.measure, v => v

/-- The state prepared by a gate list, starting from |0⟩. -/
noncomputable def runCircuit (gates : List Gate) : Fin 2 → ℂ :=
  gates.foldl (fun v g => applyGate g v) ket0

/-- The trial state as worded by the spec for a 2-element vector (θ, φ):
Rz(θ)·Ry(φ)|0⟩ with the first component the Rz angle and the second the
Ry angle.  For comparison against the circuit semantics. -/
noncomputable def specTrialState (theta phi : ℝ) : Fin 2 → ℂ :=
  (rzMat theta).mulVec ((ryMat phi).mulVec ket0)

/-- C4 counterexample: at the parameter vector (π, 0) the circuit
prepares Rz(0)·Ry(π)|0⟩ = |1⟩, not the claimed Rz(π)·Ry(0)|0⟩ = −i|0⟩ —
the two states differ in their second component (1 versus 0), so the
claimed reading of the parameter order is false. -/
theorem trial_state_claim_counterexample :
    (get_var_form [Real.pi, 0] "z").map runCircuit ≠
      some (specTrialState Real.pi 0) := by
  intro hcontra
  have hst : runCircuit [Gate.ry Real.pi, Gate.rz 0, Gate.measure] =
      specTrialState Real.pi 0 := Option.some.inj hcontra
  have h1 := congrFun hst 1
  simp [runCircuit, applyGate, specTrialState, ryMat, rzMat, ket0,
    Matrix.mulVec, Matrix.dotProduct, Fin.sum_univ_two,
    Real.cos_pi_div_two, Real.sin_pi_div_two, Complex.exp_zero] at h1

/-- C4 amended: the first parameter is the Ry angle and the second the
Rz angle — a 2-element vector (φ, θ) prepares Rz(θ)·Ry(φ)|0⟩, and a
1-element vector (φ) prepares Ry(φ)|0⟩ as claimed. -/
theorem trial_state_param_roles (phi theta : ℝ) :
    (get_var_form [phi, theta] "z").map runCircuit =
      some ((rzMat theta).mulVec ((ryMat phi).mulVec ket0)) ∧
    (get_var_form [phi] "z").map runCircuit =
      some ((ryMat phi).mulVec ket0) :=
  ⟨rfl, rfl⟩

/-- The square root of two squares to two, over ℂ. -/
theorem sqrt_two_sq : (Real.sqrt 2 : ℂ) * (Real.sqrt 2 : ℂ) = 2 := by
  norm_cast
  exact Real.mul_self_sqrt (by norm_num)

/-- S·Z equals S† as a matrix. -/
theorem s_mul_z : sMat * zMat = sMat.conjTranspose := by
  ext i j
  fin_cases i <;> fin_cases j <;>
    simp [sMat, zMat, Matrix.mul_apply, Fin.sum_univ_two,
      Matrix.conjTranspose_apply, Complex.conj_I]

/-- The composite of the gates Z, S, H applied in that order, in closed
form. -/
theorem composite_smul :
    hMat * sMat * zMat =
      ((Real.sqrt 2 : ℂ))⁻¹ • !![1, -Complex.I; 1, Complex.I] := by
  ext i j
  fin_cases i <;> fin_cases j <;>
    simp [hMat, sMat, zMat, Matrix.mul_apply, Fin.sum_univ_two,
      Matrix.smul_apply]

/-- C6: the basis change appended before measurement is no gate for the
tag "z", a single Hadamard for "x", and Z then S then Hadamard for "y";
the Y-basis composite (as a matrix, gates applied right to left) equals
H·S† — i.e. apply S† then H — and it conjugates the Pauli Y matrix into
the Pauli Z matrix, rotating the Y eigenbasis into the computational
basis. -/
theorem measurement_basis_change :
    basisGates "z" = [] ∧ basisGates "x" = [Gate.h] ∧
    basisGates "y" = [Gate.z, Gate.s, Gate.h] ∧
    hMat * sMat * zMat = hMat * sMat.conjTranspose ∧
    (hMat * sMat * zMat) * yMat * (hMat * sMat * zMat).conjTranspose
      = zMat := by
  refine ⟨rfl, rfl, rfl, ?_, ?_⟩
  · rw [Matrix.mul_assoc, s_mul_z]
  · rw [composite_smul]
    ext i j
    fin_cases i <;> fin_cases j <;>
      simp [yMat, zMat, Matrix.mul_apply, Fin.sum_univ_two,
        Matrix.smul_apply, Matrix.conjTranspose_apply, Complex.conj_I,
        map_inv₀, Complex.conj_ofReal] <;>
      field_simp <;>
      rw [sqrt_two_sq] <;> norm_num

/-! The deterministic tail of `ham_exp_val` and the exact verifier. -/

/-- `np.linalg.norm` of the 3-vector of expectation estimates. -/
noncomputable def norm3 (v : Fin 3 → ℝ) : ℝ :=
  Real.sqrt (v 0 ^ 2 + v 1 ^ 2 + v 2 ^ 2)

/-- The arithmetic `ham_exp_val` performs after sampling: assemble the
vector of the three per-basis estimates, divide it by its
`np.linalg.norm` (the unconditional "manually normalize probability"
step), multiply elementwise by `ham_coef` and sum.  There is no branch
on the norm being zero, exactly as in the notebook. -/
noncomputable def ham_exp_val_post (ez ex ey : ℝ)
    (ham_coef : Fin 3 → ℝ) : ℝ :=
  let exp_val_vec : Fin 3 → ℝ := ![ez, ex, ey]
  let exp_val_vec2 : Fin 3 → ℝ :=
    fun i => exp_val_vec i / norm3 exp_val_vec
  let ham_vec : Fin 3 → ℝ := fun i => ham_coef i * exp_val_vec2 i
  ham_vec 0 + ham_vec 1 + ham_vec 2

/-- C5: for a nonzero raw expectation vector (⟨Z⟩, ⟨X⟩, ⟨Y⟩) the energy
objective returns a·⟨Z⟩/‖v‖ + b·⟨X⟩/‖v‖ + c·⟨Y⟩/‖v‖, where ‖v‖ is the L2
norm of the three components; the normalization is applied
unconditionally by the code. -/
theorem ham_exp_val_weighted_normalized_sum
    (ez ex ey a b c : ℝ) (hv : ![ez, ex, ey] ≠ 0) :
    ham_exp_val_post ez ex ey ![a, b, c] =
      a * (ez / norm3 ![ez, ex, ey]) + b * (ex / norm3 ![ez, ex, ey]) +
        c * (ey / norm3 ![ez, ex, ey]) ∧
    norm3 ![ez, ex, ey] = Real.sqrt (ez ^ 2 + ex ^ 2 + ey ^ 2) := by
  constructor
  · simp [ham_exp_val_post]
  · simp [norm3]

/-- Concrete instantiation of the C5 formula at v = (1, 0, 0),
coefficients (1, 2, 3). -/
theorem ham_exp_val_weighted_normalized_sum_witness :
    ham_exp_val_post 1 0 0 ![1, 2, 3] =
      1 * ((1 : ℝ) / norm3 ![1, 0, 0]) +
        2 * ((0 : ℝ) / norm3 ![1, 0, 0]) +
        3 * ((0 : ℝ) / norm3 ![1, 0, 0]) ∧
    norm3 ![(1 : ℝ), 0, 0] =
      Real.sqrt ((1 : ℝ) ^ 2 + 0 ^ 2 + 0 ^ 2) :=
  ham_exp_val_weighted_normalized_sum 1 0 0 1 2 3
    (fun hcontra => one_ne_zero (congrFun hcontra 0))

/-- C3 (code bug): at the balanced counts {0: 5000, 1: 5000} in all
three bases the raw expectation vector is exactly (0, 0, 0), its
`np.linalg.norm` is 0, and `ham_exp_val` reaches the division
`exp_val_vec / 0` — there is no zero-norm guard anywhere in the code.
Under the real-division convention 0/0 = 0 the embedded objective
returns 0 for every coefficient vector; in numpy the expression is
0.0/0.0 = NaN, silently propagated into the optimizer. -/
theorem ham_exp_val_zero_vector_unguarded :
    exp_from_counts (CountsDict.mk (some 5000) (some 5000)) NUM_SHOTS
        = some 0 ∧
    norm3 ![0, 0, 0] = 0 ∧
    ∀ ham_coef : Fin 3 → ℝ, ham_exp_val_post 0 0 0 ham_coef = 0 := by
  refine ⟨?_, ?_, ?_⟩
  · norm_num [exp_from_counts]
  · simp [norm3]
  · intro ham_coef
    simp [ham_exp_val_post]

/-- The 2×2 Hermitian matrix the verifier cell builds from the
coefficients: [[a, b − i·c], [b + i·c, −a]]. -/
noncomputable def ham_matrix (a b c : ℝ) : Matrix (Fin 2) (Fin 2) ℂ :=
  !![(a : ℂ), (b : ℂ) - Complex.I * (c : ℂ);
     (b : ℂ) + Complex.I * (c : ℂ), -(a : ℂ)]

/-- The real eigenvalues of the verifier matrix, as the solution set of
its characteristic equation det(M − t·1) = 0. -/
noncomputable def hamEigenvalues (a b c : ℝ) : Set ℝ :=
  {t : ℝ | Matrix.det (ham_matrix a b c - (t : ℂ) • 1) = 0}

/-- The characteristic equation of `ham_matrix` in closed form. -/
theorem mem_hamEigenvalues_iff (a b c t : ℝ) :
    t ∈ hamEigenvalues a b c ↔ t ^ 2 = a ^ 2 + b ^ 2 + c ^ 2 := by
  have hdet : Matrix.det (ham_matrix a b c - (t : ℂ) • 1) =
      (((t ^ 2 - (a ^ 2 + b ^ 2 + c ^ 2) : ℝ)) : ℂ) := by
    rw [Matrix.det_fin_two]
    simp [ham_matrix, Matrix.sub_apply, Matrix.smul_apply,
      Matrix.one_apply, smul_eq_mul]
    ring_nf
    rw [Complex.I_sq]
    ring
  unfold hamEigenvalues
  rw [Set.mem_setOf_eq, hdet]
  rw [Complex.ofReal_eq_zero, sub_eq_zero]

/-- C7: for every coefficient triple the minimum eigenvalue of the
verifier matrix is −√(a² + b² + c²), deterministically; in particular
for (1, 2, 0.5) it is −√5.25. -/
theorem ham_matrix_min_eigenvalue :
    (∀ a b c : ℝ, IsLeast (hamEigenvalues a b c)
        (-Real.sqrt (a ^ 2 + b ^ 2 + c ^ 2))) ∧
    IsLeast (hamEigenvalues 1 2 0.5) (-Real.sqrt 5.25) := by
  have hmain : ∀ a b c : ℝ, IsLeast (hamEigenvalues a b c)
      (-Real.sqrt (a ^ 2 + b ^ 2 + c ^ 2)) := by
    intro a b c
    constructor
    · rw [mem_hamEigenvalues_iff, neg_pow,
        Real.sq_sqrt (by positivity :
          (0 : ℝ) ≤ a ^ 2 + b ^ 2 + c ^ 2)]
      ring
    · intro t ht
      rw [mem_hamEigenvalues_iff] at ht
      have habs : Real.sqrt (a ^ 2 + b ^ 2 + c ^ 2) = |t| := by
        rw [← ht, Real.sqrt_sq_eq_abs]
      rw [habs]
      exact neg_abs_le t
  refine ⟨hmain, ?_⟩
  have h1 := hmain 1 2 0.5
  have hval : ((1 : ℝ) ^ 2 + 2 ^ 2 + 0.5 ^ 2) = (5.25 : ℝ) := by norm_num
  rwa [hval] at h1

end QCFC
